import Mathlib

/-!
# Verification of the VimeoTranscript text pipeline

Shallow embedding of the core text functions of `src/app.py`
(`clean_hesitations`, `sanitize_vtt`, `create_pdf`'s paragraph splitting,
and the fetch sequence of `setup_sanitize_download`), together with proofs
about them.

Strings are modelled as `List Char`.  The Python regular-expression
character classes `\w` and `\s` and the predicates `str.isdigit` /
`str.isspace` are modelled over their ASCII behaviour.
-/

namespace VimeoTranscript

/-! ## Character classes -/

/-- Model of the regex class `\w` (word character): ASCII letters, digits, underscore. -/
def isWordChar (c : Char) : Bool :=
  ('a' ≤ c && c ≤ 'z') || ('A' ≤ c && c ≤ 'Z') || ('0' ≤ c && c ≤ '9') || c == '_'

/-- Model of the regex class `\s` / `str.isspace` (ASCII whitespace). -/
def isPySpace (c : Char) : Bool :=
  c == ' ' || c == '\t' || c == '\n' || c == '\r' || c == '\x0b' || c == '\x0c'

/-- The character class `[.,]` used in the filler pattern of `clean_hesitations`. -/
def isPunct2 (c : Char) : Bool := c == '.' || c == ','

/-- The character class `[.,!?]` of the space-before-punctuation cleanup. -/
def isPunct4 (c : Char) : Bool := c == '.' || c == ',' || c == '!' || c == '?'

/-- ASCII lower-casing, as used by `re.IGNORECASE` matching of the
lowercase filler patterns. -/
def toLowerC (c : Char) : Char :=
  if 'A' ≤ c && c ≤ 'Z' then Char.ofNat (c.toNat + 32) else c

/-- Word-character test lifted to `Option Char` (`none` = out of string,
which is a non-word position for `\b`). -/
def isWordOpt : Option Char → Bool
  | none => false
  | some c => isWordChar c

/-! ## The filler-removal pass of `clean_hesitations` (src/app.py lines 30-33)

Each pass is `re.sub(r'\b' + filler + r'[.,]?\b', '', text, flags=re.IGNORECASE)`.
`fillerMatch f prevWord s` decides whether the pattern matches at the
current position of the scan (`prevWord` is the word-ness of the previous
character of the original text, used for the leading `\b`), returning the
length of the (backtracking-correct) match.  The optional `[.,]` is kept
only when the trailing `\b` still holds after it, i.e. when a word
character follows the punctuation; otherwise the regex engine backtracks
and the match ends at the filler itself (which requires a non-word
character or the end of the string next). -/

/-- `matchesLower f s`: the lowercase pattern `f` matches the start of `s`
case-insensitively. -/
def matchesLower : List Char → List Char → Bool
  | [], _ => true
  | _ :: _, [] => false
  | p :: ps, c :: cs => (toLowerC c == p) && matchesLower ps cs

/-- After the filler letters have matched, decide how the `[.,]?\b` tail of
the pattern matches against the remaining text (`flen` = filler length):
the punctuation is consumed only when a word character follows it
(otherwise the engine backtracks, and the bare match needs a non-word
character or the end of the string next). -/
def fillerTail (flen : Nat) : List Char → Option Nat
  | [] => some flen
  | p :: rest2 =>
    if isPunct2 p && isWordOpt rest2.head? then some (flen + 1)
    else if !(isWordChar p) then some flen
    else none

/-- Match attempt of `\b f [.,]? \b` at the head of `s`. -/
def fillerMatch (f : List Char) (prevWord : Bool) (s : List Char) : Option Nat :=
  if prevWord then none
  else if matchesLower f s then fillerTail f.length (s.drop f.length)
  else none

/-- The left-to-right scan of `re.sub` for one filler pattern, with empty
replacement.  `skip` counts characters of an already-accepted match that
still have to be consumed; `prevWord` is the word-ness of the previous
character of the original text. -/
def subF (f : List Char) (prevWord : Bool) (skip : Nat) (s : List Char) : List Char :=
  match s, skip with
  | [], _ => []
  | _ :: cs, k + 1 => subF f prevWord k cs
  | c :: cs, 0 =>
    match fillerMatch f prevWord (c :: cs) with
    | some n => subF f (n == f.length) (n - 1) cs
    | none => c :: subF f (isWordChar c) 0 cs

/-- One `re.sub(r'\b<filler>[.,]?\b', '', text, flags=re.IGNORECASE)` pass. -/
def removeFiller (f : List Char) (s : List Char) : List Char := subF f false 0 s

/-- The filler vocabulary `FILLERS = ["uh", "um", "hmm"]` (src/app.py line 29). -/
def FILLERS : List (List Char) := ["uh".toList, "um".toList, "hmm".toList]

/-- The `for filler in FILLERS` loop of `clean_hesitations`. -/
def removeFillers (s : List Char) : List Char :=
  FILLERS.foldl (fun t f => removeFiller f t) s

/-! ## The whitespace / punctuation cleanup of `clean_hesitations` -/

/-- `re.sub(r'\s{2,}', ' ', text)` (src/app.py line 36): every maximal run
of two or more whitespace characters becomes a single space.  The flag
records that the run currently scanned has already emitted its single
replacement space. -/
def collapseWsAux : Bool → List Char → List Char
  | _, [] => []
  | inRun, c :: cs =>
    if isPySpace c then
      if inRun then collapseWsAux true cs
      else
        match cs with
        | d :: _ =>
          if isPySpace d then ' ' :: collapseWsAux true cs
          else c :: collapseWsAux false cs
        | [] => [c]
    else c :: collapseWsAux false cs

def collapseWs (s : List Char) : List Char := collapseWsAux false s

/-- `re.sub(r'\s+([.,!?])', r'\1', text)` (src/app.py line 37): a whitespace
run immediately followed by sentence punctuation is deleted (the
punctuation is kept).  `pending` holds the whitespace run currently being
scanned (in reverse). -/
def stripWsPAux (pending : List Char) : List Char → List Char
  | [] => pending.reverse
  | c :: cs =>
    if isPySpace c then stripWsPAux (c :: pending) cs
    else if isPunct4 c && !pending.isEmpty then c :: stripWsPAux [] cs
    else pending.reverse ++ c :: stripWsPAux [] cs

def stripWsBeforePunct (s : List Char) : List Char := stripWsPAux [] s

/-- `re.sub(r'^,\s*', '', text)` (src/app.py line 40). -/
def stripLeadingComma (s : List Char) : List Char :=
  match s with
  | c :: cs => if c = ',' then cs.dropWhile isPySpace else c :: cs
  | [] => []

/-- Python `str.strip()`: remove leading and trailing whitespace. -/
def pyStrip (s : List Char) : List Char :=
  (s.dropWhile isPySpace).rdropWhile isPySpace

/-- Stages 1-3 of `clean_hesitations`: filler removal, whitespace
collapsing, removal of whitespace before punctuation. -/
def preComma (s : List Char) : List Char :=
  stripWsBeforePunct (collapseWs (removeFillers s))

/-- `clean_hesitations` (src/app.py lines 28-42). -/
def clean_hesitations (s : List Char) : List Char :=
  pyStrip (stripLeadingComma (preComma s))

/-- `clean_hesitations` with the filler vocabulary iterated in an arbitrary
order (used to examine order-independence). -/
def cleanWithOrder (order : List (List Char)) (s : List Char) : List Char :=
  pyStrip (stripLeadingComma (stripWsBeforePunct (collapseWs
    (order.foldl (fun t f => removeFiller f t) s))))

/-! ## Basic facts about the character classes -/

theorem not_word_of_space {c : Char} (h : isPySpace c = true) : isWordChar c = false := by
  simp only [isPySpace, Bool.or_eq_true, beq_iff_eq] at h
  rcases h with ((((h | h) | h) | h) | h) | h <;> subst h <;> decide

theorem not_word_of_punct2 {c : Char} (h : isPunct2 c = true) : isWordChar c = false := by
  simp only [isPunct2, Bool.or_eq_true, beq_iff_eq] at h
  rcases h with h | h <;> subst h <;> decide

theorem not_space_of_punct4 {c : Char} (h : isPunct4 c = true) : isPySpace c = false := by
  simp only [isPunct4, Bool.or_eq_true, beq_iff_eq] at h
  rcases h with ((h | h) | h) | h <;> subst h <;> decide

theorem not_word_of_punct4 {c : Char} (h : isPunct4 c = true) : isWordChar c = false := by
  simp only [isPunct4, Bool.or_eq_true, beq_iff_eq] at h
  rcases h with ((h | h) | h) | h <;> subst h <;> decide

theorem toLowerC_eq_self {c : Char} (h : isWordChar c = false) : toLowerC c = c := by
  unfold toLowerC
  rw [if_neg]
  intro hc
  have : isWordChar c = true := by simp [isWordChar, hc]
  rw [h] at this
  exact Bool.false_ne_true this

/-- The filler patterns are nonempty lowercase words (true of the three
elements of `FILLERS`). -/
def fillerOK (f : List Char) : Prop :=
  f ≠ [] ∧ ∀ c ∈ f, isWordChar c = true ∧ toLowerC c = c

theorem fillerOK_FILLERS : ∀ f ∈ FILLERS, fillerOK f :=
  show ∀ f ∈ FILLERS, f ≠ [] ∧ ∀ c ∈ f, isWordChar c = true ∧ toLowerC c = c by decide

/-! ## Facts about `matchesLower` and `fillerMatch` -/

theorem matchesLower_iff (f : List Char) : ∀ s : List Char,
    matchesLower f s = true ↔ f.length ≤ s.length ∧ (s.take f.length).map toLowerC = f := by
  induction f with
  | nil => intro s; simp [matchesLower]
  | cons p ps ih =>
    intro s
    cases s with
    | nil => simp [matchesLower]
    | cons c cs =>
      simp only [matchesLower, Bool.and_eq_true, beq_iff_eq, List.length_cons,
        List.take_succ_cons, List.map_cons, ih cs]
      constructor
      · rintro ⟨h1, h2, h3⟩; exact ⟨by omega, by rw [h1, h3]⟩
      · rintro ⟨h1, h2⟩
        injection h2 with h2a h2b
        exact ⟨h2a, by omega, h2b⟩

theorem matchesLower_of_map {f u : List Char} (hu : u.map toLowerC = f) (v : List Char) :
    matchesLower f (u ++ v) = true := by
  have hlen : u.length = f.length := by rw [← hu, List.length_map]
  rw [matchesLower_iff]
  constructor
  · simp [List.length_append]; omega
  · rw [← hlen, List.take_left, hu]

theorem word_of_mem_map {f u : List Char} (hf : fillerOK f) (hu : u.map toLowerC = f) :
    ∀ x ∈ u, isWordChar x = true := by
  intro x hx
  by_contra hw
  rw [Bool.not_eq_true] at hw
  have hmem : toLowerC x ∈ f := by rw [← hu]; exact List.mem_map_of_mem toLowerC hx
  have := (hf.2 _ hmem).1
  rw [toLowerC_eq_self hw] at this
  rw [hw] at this
  exact Bool.false_ne_true this

theorem fillerMatch_prevWord (f : List Char) (s : List Char) :
    fillerMatch f true s = none := rfl

theorem fillerMatch_nonword {f : List Char} (hf : fillerOK f) {c : Char}
    (hc : isWordChar c = false) (b : Bool) (cs : List Char) :
    fillerMatch f b (c :: cs) = none := by
  cases b with
  | true => rfl
  | false =>
    obtain ⟨hne, hall⟩ := hf
    obtain ⟨p, ps, rfl⟩ := List.exists_cons_of_ne_nil hne
    have hml : matchesLower (p :: ps) (c :: cs) = false := by
      simp only [matchesLower, Bool.and_eq_false_iff]
      left
      rw [toLowerC_eq_self hc, beq_eq_false_iff_ne]
      intro hcp
      have := (hall p (by simp)).1
      rw [← hcp, hc] at this
      exact Bool.false_ne_true this
    simp [fillerMatch, hml]

theorem fillerMatch_some {f : List Char} {s : List Char} {n : Nat}
    (h : fillerMatch f false s = some n) :
    (s.take f.length).map toLowerC = f ∧ f.length ≤ s.length ∧
      ((n = f.length + 1 ∧ ∃ p r2, s.drop f.length = p :: r2 ∧ isPunct2 p = true ∧
          isWordOpt r2.head? = true)
        ∨ (n = f.length ∧ isWordOpt (s.drop f.length).head? = false)) := by
  unfold fillerMatch at h
  simp only [if_neg Bool.false_ne_true] at h
  by_cases hml : matchesLower f s = true
  · rw [if_pos hml] at h
    obtain ⟨hlen, htake⟩ := (matchesLower_iff f s).mp hml
    refine ⟨htake, hlen, ?_⟩
    cases hd : s.drop f.length with
    | nil =>
      rw [hd] at h
      right
      simp only [fillerTail, Option.some.injEq] at h
      exact ⟨h.symm, by simp [isWordOpt]⟩
    | cons p r2 =>
      rw [hd] at h
      simp only [fillerTail] at h
      by_cases hp : (isPunct2 p && isWordOpt r2.head?) = true
      · rw [if_pos hp] at h
        simp only [Option.some.injEq] at h
        rw [Bool.and_eq_true] at hp
        exact Or.inl ⟨h.symm, p, r2, rfl, hp.1, hp.2⟩
      · rw [if_neg hp] at h
        by_cases hw : isWordChar p = true
        · rw [hw] at h; simp at h
        · rw [Bool.not_eq_true] at hw
          rw [hw] at h
          simp only [Bool.not_false, if_pos, Option.some.injEq] at h
          exact Or.inr ⟨h.symm, by simp [isWordOpt, hw]⟩
  · rw [if_neg hml] at h
    exact absurd h (by simp)

theorem fillerMatch_of_run {f u : List Char} (hu : u.map toLowerC = f) (v : List Char)
    (hv : isWordOpt v.head? = false) :
    (fillerMatch f false (u ++ v)).isSome = true := by
  have hlen : u.length = f.length := by rw [← hu, List.length_map]
  unfold fillerMatch
  rw [if_neg Bool.false_ne_true, if_pos (matchesLower_of_map hu v)]
  rw [← hlen, List.drop_left]
  cases v with
  | nil => simp [fillerTail]
  | cons p r2 =>
    simp only [List.head?_cons, isWordOpt] at hv
    simp only [fillerTail]
    by_cases hp : (isPunct2 p && isWordOpt r2.head?) = true
    · rw [if_pos hp]; simp
    · rw [if_neg hp, hv]; simp

/-! ## Maximal word runs

The filler pattern `\b f [.,]? \b` matches exactly at the start of a
maximal run of word characters that spells `f` case-insensitively, so the
word runs of a string are the right invariant for reasoning about the
filler-removal passes. -/

/-- Prepend the accumulated (reversed) run, if nonempty. -/
def consRun (acc : List Char) (l : List (List Char)) : List (List Char) :=
  if acc.isEmpty then l else acc.reverse :: l

def wordsAux (acc : List Char) : List Char → List (List Char)
  | [] => consRun acc []
  | c :: cs => if isWordChar c then wordsAux (c :: acc) cs else consRun acc (wordsAux [] cs)

/-- The maximal word-character runs of a string, in order. -/
def words (s : List Char) : List (List Char) := wordsAux [] s

theorem consRun_ne {acc : List Char} (h : acc ≠ []) (l : List (List Char)) :
    consRun acc l = acc.reverse :: l := by
  unfold consRun
  rw [if_neg]
  simpa using h

theorem words_cons_nonword {c : Char} (h : isWordChar c = false) (t : List Char) :
    words (c :: t) = words t := by
  simp [words, wordsAux, h, consRun]

theorem wordsAux_append_run {u : List Char} (hu : ∀ x ∈ u, isWordChar x = true) :
    ∀ (acc v : List Char), wordsAux acc (u ++ v) = wordsAux (u.reverse ++ acc) v := by
  induction u with
  | nil => intro acc v; simp
  | cons a u' ih =>
    intro acc v
    have ha : isWordChar a = true := hu a (by simp)
    rw [List.cons_append, wordsAux, if_pos ha, ih (fun x hx => hu x (by simp [hx]))]
    simp

theorem words_run_append {u v : List Char} (hu : ∀ x ∈ u, isWordChar x = true)
    (hne : u ≠ []) (hv : isWordOpt v.head? = false) :
    words (u ++ v) = u :: words v := by
  unfold words
  rw [show wordsAux [] (u ++ v) = wordsAux (u.reverse ++ []) v from
    wordsAux_append_run hu [] v, List.append_nil]
  have hrne : u.reverse ≠ [] := by simpa using hne
  cases v with
  | nil =>
    rw [wordsAux, consRun_ne hrne, List.reverse_reverse]
    rfl
  | cons m v' =>
    have hm : isWordChar m = false := by simpa [isWordOpt] using hv
    rw [wordsAux, if_neg (by simp [hm]), consRun_ne hrne, List.reverse_reverse,
      wordsAux, if_neg (by simp [hm])]
    rfl

theorem headNonWord_dropWhile (t : List Char) :
    isWordOpt ((t.dropWhile isWordChar).head?) = false := by
  induction t with
  | nil => rfl
  | cons c cs ih =>
    by_cases h : isWordChar c = true
    · simpa [List.dropWhile_cons, h] using ih
    · rw [Bool.not_eq_true] at h
      simp [List.dropWhile_cons, h, isWordOpt]

/-! ## Behaviour of the scan `subF` -/

theorem subF_skip (f : List Char) (b : Bool) :
    ∀ (s : List Char) (k : Nat), subF f b k s = subF f b 0 (s.drop k) := by
  intro s
  induction s with
  | nil => intro k; cases k <;> rfl
  | cons c cs ih =>
    intro k
    cases k with
    | zero => rfl
    | succ k' =>
      show subF f b k' cs = subF f b 0 ((c :: cs).drop (k' + 1))
      rw [List.drop_succ_cons]
      exact ih k'

theorem subF_cons (f : List Char) (b : Bool) (c : Char) (cs : List Char) :
    subF f b 0 (c :: cs) =
      match fillerMatch f b (c :: cs) with
      | some n => subF f (n == f.length) (n - 1) cs
      | none => c :: subF f (isWordChar c) 0 cs := rfl

theorem subF_match {f : List Char} {b : Bool} {c : Char} {cs : List Char} {n : Nat}
    (h : fillerMatch f b (c :: cs) = some n) :
    subF f b 0 (c :: cs) = subF f (n == f.length) 0 (cs.drop (n - 1)) := by
  rw [subF_cons, h]
  exact subF_skip f (n == f.length) cs (n - 1)

theorem subF_nomatch {f : List Char} {b : Bool} {c : Char} {cs : List Char}
    (h : fillerMatch f b (c :: cs) = none) :
    subF f b 0 (c :: cs) = c :: subF f (isWordChar c) 0 cs := by
  rw [subF_cons, h]

/-- While the scan context says "previous character is a word character",
no match can start, so the scan copies the rest of the current word run. -/
theorem subF_true_eq {f : List Char} (hf : fillerOK f) : ∀ t : List Char,
    subF f true 0 t =
      t.takeWhile isWordChar ++ subF f false 0 (t.dropWhile isWordChar) := by
  intro t
  induction t with
  | nil => rfl
  | cons c cs ih =>
    rw [subF_nomatch (fillerMatch_prevWord f (c :: cs))]
    by_cases h : isWordChar c = true
    · rw [h, List.takeWhile_cons, if_pos h, List.dropWhile_cons, if_pos h,
        List.cons_append, ih]
    · rw [Bool.not_eq_true] at h
      rw [h, List.takeWhile_cons, if_neg (by simp [h]), List.dropWhile_cons,
        if_neg (by simp [h]), List.nil_append,
        subF_nomatch (fillerMatch_nonword hf h false cs), h]

theorem subF_head_nonword {f : List Char} (hf : fillerOK f) {t : List Char}
    (ht : isWordOpt t.head? = false) :
    isWordOpt ((subF f false 0 t).head?) = false := by
  cases t with
  | nil => rfl
  | cons m r =>
    have hm : isWordChar m = false := by simpa [isWordOpt] using ht
    rw [subF_nomatch (fillerMatch_nonword hf hm false r)]
    simpa [isWordOpt] using hm

theorem subF_true_nonword {f : List Char} (hf : fillerOK f) {t : List Char}
    (ht : isWordOpt t.head? = false) :
    subF f true 0 t = subF f false 0 t := by
  cases t with
  | nil => rfl
  | cons m r =>
    have hm : isWordChar m = false := by simpa [isWordOpt] using ht
    rw [subF_nomatch (fillerMatch_prevWord f (m :: r)),
      subF_nomatch (fillerMatch_nonword hf hm false r), hm]

/-! ## The filler pass at the level of word runs -/

/-- One `re.sub` filler pass deletes exactly the maximal word runs that
spell the filler case-insensitively (plus adjacent punctuation, which does
not contribute to word runs): on word runs it acts as a filter. -/
theorem words_subF_aux (f : List Char) (hf : fillerOK f) :
    ∀ (N : Nat) (s : List Char), s.length ≤ N →
      words (subF f false 0 s) = (words s).filter (fun w => !(w.map toLowerC == f)) := by
  intro N
  induction N with
  | zero =>
    intro s hs
    have hnil : s = [] := List.eq_nil_of_length_eq_zero (Nat.le_zero.mp hs)
    subst hnil
    rfl
  | succ N ih =>
    intro s hs
    cases s with
    | nil => rfl
    | cons c cs =>
      have hflen : 1 ≤ f.length := List.length_pos.mpr hf.1
      have hcs : cs.length ≤ N := by simpa using hs
      by_cases hw : isWordChar c = true
      · cases hm : fillerMatch f false (c :: cs) with
        | none =>
          rw [subF_nomatch hm, hw, subF_true_eq hf cs]
          have hrest := headNonWord_dropWhile cs
          have hrun_all : ∀ x ∈ c :: cs.takeWhile isWordChar, isWordChar x = true := by
            intro x hx
            rcases List.mem_cons.mp hx with rfl | hx'
            · exact hw
            · exact List.mem_takeWhile_imp hx'
          have hXhead := subF_head_nonword hf hrest
          rw [show (c :: (cs.takeWhile isWordChar ++
                subF f false 0 (cs.dropWhile isWordChar))) =
              (c :: cs.takeWhile isWordChar) ++ subF f false 0 (cs.dropWhile isWordChar)
              from rfl]
          rw [words_run_append hrun_all (List.cons_ne_nil _ _) hXhead]
          have hsplit : c :: cs =
              (c :: cs.takeWhile isWordChar) ++ cs.dropWhile isWordChar := by
            rw [List.cons_append, List.takeWhile_append_dropWhile]
          rw [show words (c :: cs) =
              words ((c :: cs.takeWhile isWordChar) ++ cs.dropWhile isWordChar) from by
            rw [← hsplit]]
          rw [words_run_append hrun_all (List.cons_ne_nil _ _) hrest]
          rw [List.filter_cons]
          have hne : ((c :: cs.takeWhile isWordChar).map toLowerC) ≠ f := by
            intro he
            have hsome := fillerMatch_of_run he (cs.dropWhile isWordChar) hrest
            rw [← hsplit, hm] at hsome
            simp at hsome
          rw [if_pos (by simpa using hne)]
          have hlen2 : (cs.dropWhile isWordChar).length ≤ N :=
            le_trans (List.dropWhile_suffix _).sublist.length_le hcs
          rw [ih (cs.dropWhile isWordChar) hlen2]
        | some n =>
          obtain ⟨htake, hlen, hcases⟩ := fillerMatch_some hm
          have hu_len : ((c :: cs).take f.length).length = f.length := by
            rw [List.length_take]
            exact min_eq_left hlen
          have hu_all : ∀ x ∈ (c :: cs).take f.length, isWordChar x = true :=
            word_of_mem_map hf htake
          have hu_ne : (c :: cs).take f.length ≠ [] := by
            intro h0
            rw [h0] at hu_len
            simp at hu_len
            omega
          rcases hcases with ⟨hn, p, r2, hdrop, hp2, hr2⟩ | ⟨hn, hrest⟩
          · -- the match consumed the trailing punctuation
            subst hn
            rw [subF_match hm]
            rw [show ((f.length + 1 : Nat) == f.length) = false from by
              rw [beq_eq_false_iff_ne]; omega]
            rw [show f.length + 1 - 1 = f.length from by omega]
            have hcd : cs.drop f.length = r2 := by
              have h1 : List.drop 1 (List.drop f.length (c :: cs)) = r2 := by
                rw [hdrop]; rfl
              rw [List.drop_drop] at h1
              rw [List.drop_succ_cons] at h1
              exact h1
            rw [hcd]
            have hsplit : c :: cs = (c :: cs).take f.length ++ (p :: r2) := by
              rw [← hdrop, List.take_append_drop]
            rw [show words (c :: cs) =
                words ((c :: cs).take f.length ++ (p :: r2)) from by rw [← hsplit]]
            have hpnw : isWordChar p = false := not_word_of_punct2 hp2
            rw [words_run_append hu_all hu_ne (by simp [isWordOpt, hpnw])]
            rw [words_cons_nonword hpnw r2]
            rw [List.filter_cons, if_neg (by simp [htake])]
            have hlen2 : r2.length ≤ N := by
              rw [← hcd, List.length_drop]
              omega
            exact ih r2 hlen2
          · -- bare filler match (no punctuation consumed)
            subst hn
            rw [subF_match hm]
            rw [show ((f.length : Nat) == f.length) = true from by simp]
            have hcd : cs.drop (f.length - 1) = (c :: cs).drop f.length := by
              rw [← List.drop_succ_cons]
              congr 1
              omega
            rw [hcd]
            rw [subF_true_nonword hf hrest]
            have hsplit : c :: cs = (c :: cs).take f.length ++ (c :: cs).drop f.length :=
              (List.take_append_drop _ _).symm
            rw [show words (c :: cs) =
                words ((c :: cs).take f.length ++ (c :: cs).drop f.length) from by
              rw [← hsplit]]
            rw [words_run_append hu_all hu_ne hrest]
            rw [List.filter_cons, if_neg (by simp [htake])]
            have hlen2 : ((c :: cs).drop f.length).length ≤ N := by
              rw [List.length_drop, List.length_cons]
              omega
            exact ih _ hlen2
      · rw [Bool.not_eq_true] at hw
        rw [subF_nomatch (fillerMatch_nonword hf hw false cs), hw,
          words_cons_nonword hw, words_cons_nonword hw]
        exact ih cs hcs

/-- `words` of one filler-removal pass: the filler's word runs are
filtered out, everything else is untouched. -/
theorem words_removeFiller {f : List Char} (hf : fillerOK f) (s : List Char) :
    words (removeFiller f s) = (words s).filter (fun w => !(w.map toLowerC == f)) :=
  words_subF_aux f hf s.length s le_rfl

/-- If a match starts at the head of the string, the string decomposes as
the matched run followed by a non-word position, and that run is the first
word of the string. -/
theorem words_head_of_match {f : List Char} (hf : fillerOK f) {c : Char} {cs : List Char}
    {n : Nat} (hm : fillerMatch f false (c :: cs) = some n) :
    ((c :: cs).take f.length).map toLowerC = f ∧
      words (c :: cs) = (c :: cs).take f.length :: words ((c :: cs).drop f.length) := by
  have hflen : 1 ≤ f.length := List.length_pos.mpr hf.1
  obtain ⟨htake, hlen, hcases⟩ := fillerMatch_some hm
  have hu_all : ∀ x ∈ (c :: cs).take f.length, isWordChar x = true :=
    word_of_mem_map hf htake
  have hu_len : ((c :: cs).take f.length).length = f.length := by
    rw [List.length_take]
    exact min_eq_left hlen
  have hu_ne : (c :: cs).take f.length ≠ [] := by
    intro h0
    rw [h0] at hu_len
    simp at hu_len
    omega
  have hrest_nw : isWordOpt ((c :: cs).drop f.length).head? = false := by
    rcases hcases with ⟨_, p, r2, hdrop, hp2, _⟩ | ⟨_, h⟩
    · rw [hdrop]
      simp [isWordOpt, not_word_of_punct2 hp2]
    · exact h
  refine ⟨htake, ?_⟩
  conv_lhs => rw [(List.take_append_drop f.length (c :: cs)).symm]
  exact words_run_append hu_all hu_ne hrest_nw

/-- A filler-removal pass is the identity on a string none of whose word
runs spells the filler. -/
theorem subF_eq_self_aux (f : List Char) (hf : fillerOK f) :
    ∀ (N : Nat) (s : List Char), s.length ≤ N →
      (∀ w ∈ words s, w.map toLowerC ≠ f) → subF f false 0 s = s := by
  intro N
  induction N with
  | zero =>
    intro s hs _
    have hnil : s = [] := List.eq_nil_of_length_eq_zero (Nat.le_zero.mp hs)
    subst hnil
    rfl
  | succ N ih =>
    intro s hs hno
    cases s with
    | nil => rfl
    | cons c cs =>
      have hcs : cs.length ≤ N := by simpa using hs
      by_cases hw : isWordChar c = true
      · cases hm : fillerMatch f false (c :: cs) with
        | some n =>
          exfalso
          obtain ⟨htake, hw2⟩ := words_head_of_match hf hm
          exact hno _ (by rw [hw2]; exact List.mem_cons_self _ _) htake
        | none =>
          rw [subF_nomatch hm, hw, subF_true_eq hf cs]
          have hrest := headNonWord_dropWhile cs
          have hrun_all : ∀ x ∈ c :: cs.takeWhile isWordChar, isWordChar x = true := by
            intro x hx
            rcases List.mem_cons.mp hx with rfl | hx'
            · exact hw
            · exact List.mem_takeWhile_imp hx'
          have hwords : words (c :: cs) =
              (c :: cs.takeWhile isWordChar) :: words (cs.dropWhile isWordChar) := by
            conv_lhs =>
              rw [show c :: cs = (c :: cs.takeWhile isWordChar) ++ cs.dropWhile isWordChar
                from by rw [List.cons_append, List.takeWhile_append_dropWhile]]
            exact words_run_append hrun_all (List.cons_ne_nil _ _) hrest
          have hno' : ∀ w ∈ words (cs.dropWhile isWordChar), w.map toLowerC ≠ f := by
            intro w hwm
            exact hno w (by rw [hwords]; exact List.mem_cons_of_mem _ hwm)
          have hlen2 : (cs.dropWhile isWordChar).length ≤ N :=
            le_trans (List.dropWhile_suffix _).sublist.length_le hcs
          rw [ih (cs.dropWhile isWordChar) hlen2 hno', List.takeWhile_append_dropWhile]
      · rw [Bool.not_eq_true] at hw
        rw [subF_nomatch (fillerMatch_nonword hf hw false cs), hw]
        have hno' : ∀ w ∈ words cs, w.map toLowerC ≠ f := by
          intro w hwm
          exact hno w (by rw [words_cons_nonword hw]; exact hwm)
        rw [ih cs hcs hno']

theorem removeFiller_eq_self {f : List Char} (hf : fillerOK f) {s : List Char}
    (hno : ∀ w ∈ words s, w.map toLowerC ≠ f) : removeFiller f s = s :=
  subF_eq_self_aux f hf s.length s le_rfl hno

/-! ## Searching for a filler occurrence (the property asserted by the spec) -/

/-- `re.search`-style scan for a match of `\b f [.,]? \b` in `s`. -/
def hmAux (f : List Char) (prevW : Bool) : List Char → Bool
  | [] => false
  | c :: cs => (fillerMatch f prevW (c :: cs)).isSome || hmAux f (isWordChar c) cs

/-- `s` contains a case-insensitive whole-word occurrence of the filler
`f`, with or without a single trailing `.`/`,` (i.e. the pattern
`\b f [.,]? \b` of `clean_hesitations` matches somewhere in `s`). -/
def hasFillerOcc (f s : List Char) : Bool := hmAux f false s

theorem hmAux_true_eq {f : List Char} (hf : fillerOK f) : ∀ t : List Char,
    hmAux f true t = hmAux f false (t.dropWhile isWordChar) := by
  intro t
  induction t with
  | nil => rfl
  | cons c cs ih =>
    rw [hmAux, fillerMatch_prevWord]
    by_cases h : isWordChar c = true
    · rw [h, List.dropWhile_cons, if_pos h]
      simpa using ih
    · rw [Bool.not_eq_true] at h
      rw [h, List.dropWhile_cons, if_neg (by simp [h]), hmAux,
        fillerMatch_nonword hf h false cs, h]

theorem hmAux_eq_false_aux (f : List Char) (hf : fillerOK f) :
    ∀ (N : Nat) (s : List Char), s.length ≤ N →
      (∀ w ∈ words s, w.map toLowerC ≠ f) → hmAux f false s = false := by
  intro N
  induction N with
  | zero =>
    intro s hs _
    have hnil : s = [] := List.eq_nil_of_length_eq_zero (Nat.le_zero.mp hs)
    subst hnil
    rfl
  | succ N ih =>
    intro s hs hno
    cases s with
    | nil => rfl
    | cons c cs =>
      have hcs : cs.length ≤ N := by simpa using hs
      by_cases hw : isWordChar c = true
      · cases hm : fillerMatch f false (c :: cs) with
        | some n =>
          exfalso
          obtain ⟨htake, hw2⟩ := words_head_of_match hf hm
          exact hno _ (by rw [hw2]; exact List.mem_cons_self _ _) htake
        | none =>
          rw [hmAux, hm, hw]
          have hrun_all : ∀ x ∈ c :: cs.takeWhile isWordChar, isWordChar x = true := by
            intro x hx
            rcases List.mem_cons.mp hx with rfl | hx'
            · exact hw
            · exact List.mem_takeWhile_imp hx'
          have hwords : words (c :: cs) =
              (c :: cs.takeWhile isWordChar) :: words (cs.dropWhile isWordChar) := by
            conv_lhs =>
              rw [show c :: cs = (c :: cs.takeWhile isWordChar) ++ cs.dropWhile isWordChar
                from by rw [List.cons_append, List.takeWhile_append_dropWhile]]
            exact words_run_append hrun_all (List.cons_ne_nil _ _)
              (headNonWord_dropWhile cs)
          have hno' : ∀ w ∈ words (cs.dropWhile isWordChar), w.map toLowerC ≠ f := by
            intro w hwm
            exact hno w (by rw [hwords]; exact List.mem_cons_of_mem _ hwm)
          have hlen2 : (cs.dropWhile isWordChar).length ≤ N :=
            le_trans (List.dropWhile_suffix _).sublist.length_le hcs
          rw [hmAux_true_eq hf cs, ih (cs.dropWhile isWordChar) hlen2 hno']
          simp
      · rw [Bool.not_eq_true] at hw
        rw [hmAux, fillerMatch_nonword hf hw false cs, hw]
        have hno' : ∀ w ∈ words cs, w.map toLowerC ≠ f := by
          intro w hwm
          exact hno w (by rw [words_cons_nonword hw]; exact hwm)
        rw [ih cs hcs hno']
        simp

/-- A string none of whose word runs spells `f` contains no occurrence of
the filler pattern. -/
theorem hasFillerOcc_eq_false {f : List Char} (hf : fillerOK f) {s : List Char}
    (hno : ∀ w ∈ words s, w.map toLowerC ≠ f) : hasFillerOcc f s = false :=
  hmAux_eq_false_aux f hf s.length s le_rfl hno

/-! ## The cleanup stages do not change the word runs -/

theorem wordsAux_word {c : Char} (h : isWordChar c = true) (acc t : List Char) :
    wordsAux acc (c :: t) = wordsAux (c :: acc) t := by
  rw [wordsAux, if_pos h]

theorem wordsAux_nonword {c : Char} (h : isWordChar c = false) (acc t : List Char) :
    wordsAux acc (c :: t) = consRun acc (wordsAux [] t) := by
  rw [wordsAux, if_neg (by simp [h])]

theorem wordsAux_nil_nonword {u : List Char} (hu : ∀ x ∈ u, isWordChar x = false) :
    ∀ t : List Char, wordsAux [] (u ++ t) = wordsAux [] t := by
  induction u with
  | nil => intro t; rfl
  | cons a u' ih =>
    intro t
    rw [List.cons_append, wordsAux_nonword (hu a (by simp)),
      ih (fun x hx => hu x (by simp [hx])) t]
    rfl

theorem wordsAux_nonword_append {u : List Char} (hu : ∀ x ∈ u, isWordChar x = false)
    (hne : u ≠ []) (acc t : List Char) :
    wordsAux acc (u ++ t) = consRun acc (wordsAux [] t) := by
  cases u with
  | nil => exact absurd rfl hne
  | cons a u' =>
    rw [List.cons_append, wordsAux_nonword (hu a (by simp)),
      wordsAux_nil_nonword (fun x hx => hu x (by simp [hx])) t]

theorem wordsAux_append_nonword {v : List Char} (hv : ∀ x ∈ v, isWordChar x = false) :
    ∀ (t acc : List Char), wordsAux acc (t ++ v) = wordsAux acc t := by
  intro t
  induction t with
  | nil =>
    intro acc
    cases v with
    | nil => rfl
    | cons m v' =>
      rw [List.nil_append, wordsAux_nonword (hv m (by simp)),
        show wordsAux [] v' = wordsAux [] (v' ++ []) from by rw [List.append_nil],
        wordsAux_nil_nonword (fun x hx => hv x (by simp [hx]))]
      rfl
  | cons a t' ih =>
    intro acc
    by_cases ha : isWordChar a = true
    · rw [List.cons_append, wordsAux_word ha, ih, wordsAux_word ha]
    · rw [Bool.not_eq_true] at ha
      rw [List.cons_append, wordsAux_nonword ha, ih, wordsAux_nonword ha]

/-- Equation lemmas for `collapseWsAux`. -/
theorem collapse_true_space {c : Char} {cs : List Char} (h : isPySpace c = true) :
    collapseWsAux true (c :: cs) = collapseWsAux true cs := by
  simp [collapseWsAux, h]

theorem collapse_false_space_nil {c : Char} (h : isPySpace c = true) :
    collapseWsAux false [c] = [c] := by
  simp [collapseWsAux, h]

theorem collapse_false_space_space {c d : Char} {cs : List Char}
    (h : isPySpace c = true) (hd : isPySpace d = true) :
    collapseWsAux false (c :: d :: cs) = ' ' :: collapseWsAux true (d :: cs) := by
  simp [collapseWsAux, h, hd]

theorem collapse_false_space_nonspace {c d : Char} {cs : List Char}
    (h : isPySpace c = true) (hd : isPySpace d = false) :
    collapseWsAux false (c :: d :: cs) = c :: collapseWsAux false (d :: cs) := by
  simp [collapseWsAux, h, hd]

theorem collapse_nonspace {c : Char} {cs : List Char} (h : isPySpace c = false)
    (flag : Bool) : collapseWsAux flag (c :: cs) = c :: collapseWsAux false cs := by
  cases flag <;> simp [collapseWsAux, h]

theorem wordsAux_collapse : ∀ (s acc : List Char) (flag : Bool),
    (flag = true → acc = []) → wordsAux acc (collapseWsAux flag s) = wordsAux acc s := by
  intro s
  induction s with
  | nil => intro acc flag _; cases flag <;> rfl
  | cons c cs ih =>
    intro acc flag hfa
    by_cases hsp : isPySpace c = true
    · have hcw : isWordChar c = false := not_word_of_space hsp
      cases flag with
      | true =>
        have hacc : acc = [] := hfa rfl
        subst hacc
        rw [collapse_true_space hsp, ih [] true (fun _ => rfl),
          wordsAux_nonword hcw]
        rfl
      | false =>
        cases cs with
        | nil => rw [collapse_false_space_nil hsp]
        | cons d cs' =>
          by_cases hd : isPySpace d = true
          · rw [collapse_false_space_space hsp hd,
              wordsAux_nonword (show isWordChar ' ' = false by decide),
              ih [] true (fun _ => rfl), wordsAux_nonword hcw]
          · rw [Bool.not_eq_true] at hd
            rw [collapse_false_space_nonspace hsp hd, wordsAux_nonword hcw,
              wordsAux_nonword hcw, ih [] false (by simp)]
    · rw [Bool.not_eq_true] at hsp
      rw [collapse_nonspace hsp flag]
      by_cases hcw : isWordChar c = true
      · rw [wordsAux_word hcw, wordsAux_word hcw]
        exact ih (c :: acc) false (by simp)
      · rw [Bool.not_eq_true] at hcw
        rw [wordsAux_nonword hcw, wordsAux_nonword hcw, ih [] false (by simp)]

/-- Equation lemmas for `stripWsPAux`. -/
theorem stripP_space {c : Char} (h : isPySpace c = true) (pending cs : List Char) :
    stripWsPAux pending (c :: cs) = stripWsPAux (c :: pending) cs := by
  simp [stripWsPAux, h]

theorem stripP_punct {c : Char} (h4 : isPunct4 c = true) {pending : List Char}
    (hp : pending ≠ []) (cs : List Char) :
    stripWsPAux pending (c :: cs) = c :: stripWsPAux [] cs := by
  have hsp : isPySpace c = false := not_space_of_punct4 h4
  simp only [stripWsPAux, hsp, Bool.false_eq_true, if_false, h4, Bool.true_and]
  rw [if_pos]
  simpa using hp

theorem stripP_flush {c : Char} {pending : List Char} (h : isPySpace c = false)
    (h2 : isPunct4 c = false ∨ pending = []) (cs : List Char) :
    stripWsPAux pending (c :: cs) = pending.reverse ++ c :: stripWsPAux [] cs := by
  simp only [stripWsPAux, h, Bool.false_eq_true, if_false]
  rw [if_neg]
  rcases h2 with h2 | h2
  · simp [h2]
  · simp [h2]

theorem wordsAux_stripP : ∀ (s acc pending : List Char),
    (∀ x ∈ pending, isPySpace x = true) →
    wordsAux acc (stripWsPAux pending s) = wordsAux acc (pending.reverse ++ s) := by
  intro s
  induction s with
  | nil =>
    intro acc pending _
    rw [show stripWsPAux pending [] = pending.reverse from rfl, List.append_nil]
  | cons c cs ih =>
    intro acc pending hpend
    have hpw : ∀ x ∈ pending.reverse, isWordChar x = false := by
      intro x hx
      exact not_word_of_space (hpend x (List.mem_reverse.mp hx))
    by_cases hsp : isPySpace c = true
    · rw [stripP_space hsp, ih acc (c :: pending) (by
        intro x hx
        rcases List.mem_cons.mp hx with rfl | hx'
        · exact hsp
        · exact hpend x hx')]
      rw [List.reverse_cons, List.append_assoc, List.singleton_append]
    · rw [Bool.not_eq_true] at hsp
      have hcw : isWordChar c = false ∨ isWordChar c = true := by
        cases h : isWordChar c
        · exact Or.inl rfl
        · exact Or.inr rfl
      by_cases hpu : isPunct4 c = true ∧ pending ≠ []
      · obtain ⟨h4, hpne⟩ := hpu
        have hc : isWordChar c = false := not_word_of_punct4 h4
        rw [stripP_punct h4 hpne, wordsAux_nonword hc,
          ih [] [] (by intro x hx; simp at hx),
          wordsAux_nonword_append hpw (by simpa using hpne),
          wordsAux_nonword hc]
        rfl
      · have h2 : isPunct4 c = false ∨ pending = [] := by
          by_cases h4 : isPunct4 c = true
          · right
            by_contra hne
            exact hpu ⟨h4, hne⟩
          · left
            exact Bool.eq_false_iff.mpr h4
        rw [stripP_flush hsp h2]
        cases hpe : pending with
        | nil =>
          rw [List.reverse_nil, List.nil_append, List.nil_append]
          rcases hcw with hc | hc
          · rw [wordsAux_nonword hc, wordsAux_nonword hc,
              ih [] [] (by intro x hx; simp at hx)]
            rfl
          · rw [wordsAux_word hc, wordsAux_word hc]
            exact ih (c :: acc) [] (by intro x hx; simp at hx)
        | cons p0 pr =>
          have hpne : pending ≠ [] := by rw [hpe]; exact List.cons_ne_nil _ _
          rw [← hpe]
          rw [wordsAux_nonword_append hpw (by simp [hpe]),
            wordsAux_nonword_append hpw (by simp [hpe])]
          rcases hcw with hc | hc
          · rw [wordsAux_nonword hc, wordsAux_nonword hc,
              ih [] [] (by intro x hx; simp at hx)]
            rfl
          · rw [wordsAux_word hc, wordsAux_word hc]
            rw [ih (c :: []) [] (by intro x hx; simp at hx)]
            rfl

theorem words_stripWsBeforePunct (s : List Char) :
    words (stripWsBeforePunct s) = words s := by
  unfold words stripWsBeforePunct
  rw [wordsAux_stripP s [] [] (by intro x hx; simp at hx)]
  rfl

theorem words_collapseWs (s : List Char) : words (collapseWs s) = words s :=
  wordsAux_collapse s [] false (by simp)

theorem words_dropWhile_space (s : List Char) :
    words (s.dropWhile isPySpace) = words s := by
  conv_rhs => rw [← List.takeWhile_append_dropWhile (p := isPySpace) (l := s)]
  unfold words
  rw [wordsAux_nil_nonword (fun x hx => not_word_of_space (List.mem_takeWhile_imp hx))]

theorem rdrop_append_rtake (p : Char → Bool) (l : List Char) :
    l.rdropWhile p ++ l.rtakeWhile p = l := by
  simp only [List.rdropWhile, List.rtakeWhile]
  rw [← List.reverse_append, List.takeWhile_append_dropWhile, List.reverse_reverse]

theorem words_rdropWhile_space (s : List Char) :
    words (s.rdropWhile isPySpace) = words s := by
  conv_rhs => rw [← rdrop_append_rtake isPySpace s]
  unfold words
  rw [wordsAux_append_nonword
    (fun x hx => not_word_of_space (List.mem_rtakeWhile_imp hx))]

theorem words_pyStrip (s : List Char) : words (pyStrip s) = words s := by
  unfold pyStrip
  rw [words_rdropWhile_space, words_dropWhile_space]

theorem words_stripLeadingComma (s : List Char) :
    words (stripLeadingComma s) = words s := by
  cases s with
  | nil => rfl
  | cons c cs =>
    by_cases hc : c = ','
    · subst hc
      rw [show stripLeadingComma (',' :: cs) = cs.dropWhile isPySpace from by
        simp [stripLeadingComma]]
      rw [words_dropWhile_space, words_cons_nonword (by decide) cs]
    · rw [show stripLeadingComma (c :: cs) = c :: cs from by simp [stripLeadingComma, hc]]

/-! ## Word runs of the whole normalizer -/

theorem words_foldl_removeFiller : ∀ (order : List (List Char)),
    (∀ f ∈ order, fillerOK f) → ∀ s : List Char,
    words (order.foldl (fun t f => removeFiller f t) s) =
      (words s).filter (fun w => order.all (fun f => !(w.map toLowerC == f))) := by
  intro order
  induction order with
  | nil =>
    intro _ s
    simp
  | cons f0 rest ih =>
    intro ho s
    rw [List.foldl_cons]
    rw [ih (fun f hf => ho f (by simp [hf])) (removeFiller f0 s)]
    rw [words_removeFiller (ho f0 (by simp)) s]
    rw [List.filter_filter]
    apply List.filter_congr
    intro w _
    rw [List.all_cons, Bool.and_comm]

/-- `words` of the full normalizer: exactly the word runs spelling a
filler are removed; all other word runs survive, in order. -/
theorem words_clean_hesitations (s : List Char) :
    words (clean_hesitations s) =
      (words s).filter (fun w => FILLERS.all (fun f => !(w.map toLowerC == f))) := by
  unfold clean_hesitations preComma removeFillers
  rw [words_pyStrip, words_stripLeadingComma, words_stripWsBeforePunct, words_collapseWs]
  exact words_foldl_removeFiller FILLERS fillerOK_FILLERS s

theorem words_cleanWithOrder (order : List (List Char)) (ho : ∀ f ∈ order, fillerOK f)
    (s : List Char) :
    words (cleanWithOrder order s) =
      (words s).filter (fun w => order.all (fun f => !(w.map toLowerC == f))) := by
  unfold cleanWithOrder
  rw [words_pyStrip, words_stripLeadingComma, words_stripWsBeforePunct, words_collapseWs]
  exact words_foldl_removeFiller order ho s

theorem clean_no_filler_words (s : List Char) :
    ∀ w ∈ words (clean_hesitations s), ∀ f ∈ FILLERS, w.map toLowerC ≠ f := by
  intro w hw f hf
  rw [words_clean_hesitations] at hw
  have hall := List.of_mem_filter hw
  rw [List.all_eq_true] at hall
  simpa using hall f hf

/-- C5 (claim theorem): the normalizer's output contains no
case-insensitive whole-word occurrence of any filler token, with or
without a trailing `.`/`,`. -/
theorem C5_no_filler_occurrence (x : List Char) (f : List Char) (hf : f ∈ FILLERS) :
    hasFillerOcc f (clean_hesitations x) = false :=
  hasFillerOcc_eq_false (fillerOK_FILLERS f hf)
    (fun w hw => clean_no_filler_words x w hw f hf)

/-- C5 witness: instance of the theorem at a concrete input. -/
theorem C5_no_filler_occurrence_witness :
    "um".toList ∈ FILLERS ∧
      hasFillerOcc "um".toList (clean_hesitations "So um, yes UM. hmm".toList) = false :=
  ⟨by decide, C5_no_filler_occurrence _ _ (by decide)⟩

/-- C2 (amended claim theorem): permuting the filler vocabulary yields a
result with the same word runs (the same sequence of words survives, in
the same order), although the full strings can differ in punctuation. -/
theorem C2_perm_same_words {order : List (List Char)} (hp : order.Perm FILLERS)
    (x : List Char) : words (cleanWithOrder order x) = words (clean_hesitations x) := by
  rw [words_cleanWithOrder order (fun f hf => fillerOK_FILLERS f (hp.mem_iff.mp hf)) x,
    words_clean_hesitations x]
  apply List.filter_congr
  intro w _
  rw [Bool.eq_iff_iff, List.all_eq_true, List.all_eq_true]
  constructor
  · intro h f hf
    exact h f (hp.mem_iff.mpr hf)
  · intro h f hf
    exact h f (hp.mem_iff.mp hf)

/-- C2 counterexample: the claim as stated is false — iterating the
vocabulary in the order `["um", "uh", "hmm"]` (a permutation of
`FILLERS`) changes the final result on the input `"y um,uh x"`
(`"y x"` instead of `"y, x"`). -/
theorem C2_counterexample :
    (["um".toList, "uh".toList, "hmm".toList]).Perm FILLERS ∧
      cleanWithOrder ["um".toList, "uh".toList, "hmm".toList] "y um,uh x".toList ≠
        clean_hesitations "y um,uh x".toList ∧
      cleanWithOrder ["um".toList, "uh".toList, "hmm".toList] "y um,uh x".toList =
        "y x".toList ∧
      clean_hesitations "y um,uh x".toList = "y, x".toList := by
  refine ⟨?_, by decide, by decide, by decide⟩
  decide

/-- C2 witness (for the amended theorem): instance at a concrete
permutation and input. -/
theorem C2_perm_same_words_witness :
    (["um".toList, "uh".toList, "hmm".toList]).Perm FILLERS ∧
      words (cleanWithOrder ["um".toList, "uh".toList, "hmm".toList] "y um,uh x".toList) =
        words (clean_hesitations "y um,uh x".toList) :=
  ⟨by decide, C2_perm_same_words (by decide) _⟩

/-! ## Whitespace invariants of the normalizer output -/

/-- Forbidden pattern "two adjacent whitespace characters". -/
def noWW (a b : Char) : Prop := ¬(isPySpace a = true ∧ isPySpace b = true)

/-- Forbidden pattern "whitespace immediately before `.`, `,`, `!`, `?`". -/
def noWP (a b : Char) : Prop := ¬(isPySpace a = true ∧ isPunct4 b = true)

/-- Conjunction of the two: whitespace is never followed by whitespace or
sentence punctuation. -/
def goodPair (a b : Char) : Prop :=
  ¬(isPySpace a = true ∧ (isPySpace b = true ∨ isPunct4 b = true))

theorem goodPair_of_nonspace {a : Char} (h : isPySpace a = false) (b : Char) :
    goodPair a b := by
  intro hcon
  rw [h] at hcon
  exact Bool.false_ne_true hcon.1

theorem cross_pair {R : Char → Char → Prop} {l1 l2 : List Char}
    (h : List.Chain' R (l1 ++ l2)) {x y : Char} (hx : l1.getLast? = some x)
    (hy : l2.head? = some y) : R x y := by
  rw [List.chain'_append] at h
  exact h.2.2 x hx y hy

theorem collapse_true_head (s : List Char) :
    ∀ c, (collapseWsAux true s).head? = some c → isPySpace c = false := by
  induction s with
  | nil => intro c h; simp [collapseWsAux] at h
  | cons a t ih =>
    intro c h
    by_cases ha : isPySpace a = true
    · rw [collapse_true_space ha] at h
      exact ih c h
    · rw [Bool.not_eq_true] at ha
      rw [collapse_nonspace ha] at h
      simp at h
      rw [← h]
      exact ha

/-- After whitespace collapsing there are no two adjacent whitespace
characters. -/
theorem chainWW_collapse : ∀ (s : List Char) (flag : Bool),
    List.Chain' noWW (collapseWsAux flag s) := by
  intro s
  induction s with
  | nil => intro flag; simp [collapseWsAux]
  | cons c cs ih =>
    intro flag
    by_cases hsp : isPySpace c = true
    · cases flag with
      | true =>
        rw [collapse_true_space hsp]
        exact ih true
      | false =>
        cases cs with
        | nil =>
          rw [collapse_false_space_nil hsp]
          simp
        | cons d cs' =>
          by_cases hd : isPySpace d = true
          · rw [collapse_false_space_space hsp hd, List.chain'_cons']
            refine ⟨?_, ih true⟩
            intro y hy
            rw [Option.mem_def] at hy
            have hns := collapse_true_head (d :: cs') y hy
            intro hcon
            rw [hns] at hcon
            exact Bool.false_ne_true hcon.2
          · rw [Bool.not_eq_true] at hd
            rw [collapse_false_space_nonspace hsp hd, List.chain'_cons']
            refine ⟨?_, ih false⟩
            intro y hy
            rw [Option.mem_def, collapse_nonspace hd false, List.head?_cons,
              Option.some.injEq] at hy
            intro hcon
            rw [← hy] at hcon
            exact absurd hcon.2 (by simp [hd])
    · rw [Bool.not_eq_true] at hsp
      rw [collapse_nonspace hsp flag, List.chain'_cons']
      refine ⟨?_, ih false⟩
      intro y _
      intro hcon
      rw [hsp] at hcon
      exact Bool.false_ne_true hcon.1

/-- A whitespace run that is free of adjacent whitespace pairs has at most
one character. -/
theorem pending_short {pending : List Char} (hpend : ∀ x ∈ pending, isPySpace x = true)
    (hch : List.Chain' noWW pending.reverse) : pending = [] ∨ ∃ w, pending = [w] := by
  cases pending with
  | nil => exact Or.inl rfl
  | cons p0 pr =>
    cases pr with
    | nil => exact Or.inr ⟨p0, rfl⟩
    | cons p1 pr' =>
      exfalso
      rw [List.chain'_reverse] at hch
      exact (List.chain'_cons.mp hch).1 ⟨hpend p1 (by simp), hpend p0 (by simp)⟩

/-- After the whitespace-before-punctuation pass (on input without double
whitespace) the output has no whitespace followed by whitespace or
punctuation. -/
theorem chainGood_stripP : ∀ (s pending : List Char),
    (∀ x ∈ pending, isPySpace x = true) →
    List.Chain' noWW (pending.reverse ++ s) →
    List.Chain' goodPair (stripWsPAux pending s) := by
  intro s
  induction s with
  | nil =>
    intro pending hpend hch
    rw [show stripWsPAux pending [] = pending.reverse from rfl]
    rw [List.append_nil] at hch
    rcases pending_short hpend hch with h | ⟨w, h⟩ <;> subst h <;> simp
  | cons c cs ih =>
    intro pending hpend hch
    have hchp : List.Chain' noWW pending.reverse :=
      List.Chain'.prefix hch ⟨c :: cs, rfl⟩
    have hchs : List.Chain' noWW (c :: cs) :=
      List.Chain'.suffix hch ⟨pending.reverse, rfl⟩
    have hchcs : List.Chain' noWW cs := (List.chain'_cons'.mp hchs).2
    by_cases hsp : isPySpace c = true
    · have hpe : pending = [] := by
        rcases pending_short hpend hchp with h | ⟨w, h⟩
        · exact h
        · exfalso
          subst h
          have hcross : noWW w c :=
            cross_pair hch (by rw [List.getLast?_reverse]; rfl) rfl
          exact hcross ⟨hpend w (by simp), hsp⟩
      subst hpe
      rw [stripP_space hsp]
      apply ih [c]
      · intro x hx
        rcases List.mem_cons.mp hx with rfl | hx'
        · exact hsp
        · simp at hx'
      · simpa using hchs
    · rw [Bool.not_eq_true] at hsp
      by_cases hpu : isPunct4 c = true ∧ pending ≠ []
      · rw [stripP_punct hpu.1 hpu.2, List.chain'_cons']
        refine ⟨fun y _ => goodPair_of_nonspace hsp y, ?_⟩
        exact ih [] (by intro x hx; simp at hx) (by simpa using hchcs)
      · have h2 : isPunct4 c = false ∨ pending = [] := by
          by_cases h4 : isPunct4 c = true
          · right
            by_contra hne
            exact hpu ⟨h4, hne⟩
          · left
            exact Bool.eq_false_iff.mpr h4
        rw [stripP_flush hsp h2]
        have htail : List.Chain' goodPair (stripWsPAux [] cs) :=
          ih [] (by intro x hx; simp at hx) (by simpa using hchcs)
        rcases pending_short hpend hchp with hpe | ⟨w, hpe⟩
        · subst hpe
          rw [List.reverse_nil, List.nil_append, List.chain'_cons']
          exact ⟨fun y _ => goodPair_of_nonspace hsp y, htail⟩
        · subst hpe
          have h4 : isPunct4 c = false := by
            rcases h2 with h | h
            · exact h
            · simp at h
          rw [show ([w].reverse ++ c :: stripWsPAux [] cs) =
              w :: c :: stripWsPAux [] cs from by simp]
          rw [List.chain'_cons]
          refine ⟨?_, ?_⟩
          · intro hcon
            rcases hcon.2 with hbad | hbad
            · rw [hsp] at hbad
              exact Bool.false_ne_true hbad
            · rw [h4] at hbad
              exact Bool.false_ne_true hbad
          · rw [List.chain'_cons']
            exact ⟨fun y _ => goodPair_of_nonspace hsp y, htail⟩

theorem chain_stripLeadingComma {R : Char → Char → Prop} {s : List Char}
    (h : List.Chain' R s) : List.Chain' R (stripLeadingComma s) := by
  cases s with
  | nil => exact h
  | cons c cs =>
    by_cases hc : c = ','
    · rw [show stripLeadingComma (c :: cs) = cs.dropWhile isPySpace from by
        simp [stripLeadingComma, hc]]
      exact List.Chain'.suffix h ((List.dropWhile_suffix isPySpace).trans ⟨[c], rfl⟩)
    · rw [show stripLeadingComma (c :: cs) = c :: cs from by simp [stripLeadingComma, hc]]
      exact h

theorem pyStrip_isIn (s : List Char) : pyStrip s <:+: s := by
  unfold pyStrip
  have h1 : (s.dropWhile isPySpace).rdropWhile isPySpace <+: s.dropWhile isPySpace :=
    List.rdropWhile_prefix _ _
  have h2 : s.dropWhile isPySpace <:+ s := List.dropWhile_suffix _
  exact h1.isInfix.trans h2.isInfix

theorem chain_pyStrip {R : Char → Char → Prop} {s : List Char}
    (h : List.Chain' R s) : List.Chain' R (pyStrip s) :=
  List.Chain'.infix h (pyStrip_isIn s)

theorem chainGood_clean (x : List Char) :
    List.Chain' goodPair (clean_hesitations x) := by
  have h1 : List.Chain' noWW (collapseWsAux false (removeFillers x)) :=
    chainWW_collapse (removeFillers x) false
  have h2 : List.Chain' goodPair (stripWsBeforePunct (collapseWs (removeFillers x))) := by
    apply chainGood_stripP _ [] (by intro x hx; simp at hx)
    simpa [collapseWs] using h1
  unfold clean_hesitations preComma
  exact chain_pyStrip (chain_stripLeadingComma h2)

/-- C6 (claim theorem): the normalizer's output contains no two adjacent
whitespace characters (hence no run of two or more) and no whitespace
character immediately followed by `.`, `,`, `!` or `?`. -/
theorem C6_no_double_ws_no_ws_before_punct (x : List Char) :
    List.Chain' noWW (clean_hesitations x) ∧ List.Chain' noWP (clean_hesitations x) := by
  have h3 := chainGood_clean x
  refine ⟨h3.imp ?_, h3.imp ?_⟩
  · intro a b hg hcon
    exact hg ⟨hcon.1, Or.inl hcon.2⟩
  · intro a b hg hcon
    exact hg ⟨hcon.1, Or.inr hcon.2⟩

/-! ## The leading comma (claim C4) -/

theorem chainGood_preComma (x : List Char) :
    List.Chain' goodPair (preComma x) := by
  unfold preComma stripWsBeforePunct
  apply chainGood_stripP _ [] (by intro y hy; simp at hy)
  simpa [collapseWs] using chainWW_collapse (removeFillers x) false

theorem head_dropWhile_space {l : List Char} {c : Char}
    (h : (l.dropWhile isPySpace).head? = some c) : isPySpace c = false := by
  induction l with
  | nil => simp at h
  | cons a t ih =>
    by_cases ha : isPySpace a = true
    · rw [List.dropWhile_cons, if_pos ha] at h
      exact ih h
    · rw [List.dropWhile_cons, if_neg ha] at h
      simp at h
      rw [← h]
      exact Bool.eq_false_iff.mpr ha

theorem dW_eq_self {l : List Char}
    (h : ∀ c, l.head? = some c → isPySpace c = false) :
    l.dropWhile isPySpace = l := by
  cases l with
  | nil => rfl
  | cons a t =>
    rw [List.dropWhile_cons, if_neg (by simp [h a rfl])]

theorem head?_of_pre {l1 l2 : List Char} (h : l1 <+: l2) (hne : l1 ≠ []) :
    l1.head? = l2.head? := by
  obtain ⟨t, rfl⟩ := h
  cases l1 with
  | nil => exact absurd rfl hne
  | cons a u => simp

/-- A nonempty whitespace run cannot be followed by punctuation in a
string free of whitespace-before-punctuation. -/
theorem head_after_spaces {tw w : List Char} (htw : ∀ x ∈ tw, isPySpace x = true)
    (hne : tw ≠ []) {c : Char} (hw : w.head? = some c)
    (hch : List.Chain' goodPair (tw ++ w)) : isPunct4 c = false := by
  obtain ⟨lw, hlw⟩ : ∃ lw, tw.getLast? = some lw := by
    cases htww : tw.getLast? with
    | none => exact absurd (List.getLast?_eq_none_iff.mp htww) hne
    | some lw => exact ⟨lw, rfl⟩
  have hcross : goodPair lw c := cross_pair hch hlw hw
  by_contra h4
  rw [Bool.not_eq_false] at h4
  have hmem : lw ∈ tw := by
    obtain ⟨hne2, heq⟩ := List.mem_getLast?_eq_getLast (Option.mem_def.mpr hlw)
    rw [heq]
    exact List.getLast_mem hne2
  exact hcross ⟨htw lw hmem, Or.inr h4⟩

/-- C4 counterexample: the claim that the output never starts with a comma
is false — on `",,"` only one leading comma is removed and the output is
`","`. -/
theorem C4_counterexample :
    clean_hesitations ",,".toList = ",".toList ∧
      (clean_hesitations ",,".toList).head? = some ',' := by
  exact ⟨by decide, by decide⟩

/-- C4 (amended claim theorem): if the string after filler removal and
whitespace/punctuation cleanup does not begin with two commas, the
normalizer's output does not start with a comma (and in particular not
with a comma followed by whitespace). -/
theorem C4_amended (x : List Char)
    (h : [',', ','].isPrefixOf (preComma x) = false) :
    (clean_hesitations x).head? ≠ some ',' := by
  intro hhead
  have hch : List.Chain' goodPair (preComma x) := chainGood_preComma x
  have hclean : clean_hesitations x =
      pyStrip (stripLeadingComma (preComma x)) := rfl
  rw [hclean] at hhead
  -- head of pyStrip is the head of the leading-space-stripped string
  have hud : (((stripLeadingComma (preComma x)).dropWhile isPySpace).rdropWhile
      isPySpace).head? = some ',' := hhead
  have hune : (stripLeadingComma (preComma x)).dropWhile isPySpace ≠ [] := by
    intro h0
    rw [show pyStrip (stripLeadingComma (preComma x)) =
      ((stripLeadingComma (preComma x)).dropWhile isPySpace).rdropWhile isPySpace
      from rfl, h0] at hhead
    simp at hhead
  have hrne : ((stripLeadingComma (preComma x)).dropWhile isPySpace).rdropWhile
      isPySpace ≠ [] := by
    intro h0
    rw [show pyStrip (stripLeadingComma (preComma x)) =
      ((stripLeadingComma (preComma x)).dropWhile isPySpace).rdropWhile isPySpace
      from rfl, h0] at hhead
    simp at hhead
  have huh : ((stripLeadingComma (preComma x)).dropWhile isPySpace).head? =
      some ',' := by
    rw [← head?_of_pre (List.rdropWhile_prefix _ _) hrne]
    exact hud
  -- now case on the shape of `preComma x`
  cases hzc : preComma x with
  | nil =>
    rw [hzc] at huh
    simp [stripLeadingComma] at huh
  | cons c rest =>
    rw [hzc] at hch h huh
    by_cases hc : c = ','
    · subst hc
      rw [show stripLeadingComma (',' :: rest) = rest.dropWhile isPySpace from by
        simp [stripLeadingComma]] at huh
      have huh2 : (rest.dropWhile isPySpace).head? = some ',' := by
        rw [dW_eq_self (fun d hd => head_dropWhile_space hd)] at huh
        exact huh
      cases htw : rest.takeWhile isPySpace with
      | nil =>
        -- no spaces after the comma: the next character is the comma itself
        have hrest : rest.dropWhile isPySpace = rest := by
          conv_rhs => rw [← List.takeWhile_append_dropWhile (p := isPySpace) (l := rest)]
          rw [htw, List.nil_append]
        rw [hrest] at huh2
        cases rest with
        | nil => simp at huh2
        | cons r0 r' =>
          simp at huh2
          subst huh2
          simp [List.isPrefixOf] at h
      | cons t0 tw' =>
        -- spaces after the comma followed by a comma: contradiction with
        -- the no-whitespace-before-punctuation invariant
        have hsplit : rest = rest.takeWhile isPySpace ++ rest.dropWhile isPySpace :=
          (List.takeWhile_append_dropWhile _ _).symm
        have hchrest : List.Chain' goodPair
            (rest.takeWhile isPySpace ++ rest.dropWhile isPySpace) := by
          rw [← hsplit]
          exact (List.chain'_cons'.mp hch).2
        have hpn := head_after_spaces
          (fun y hy => List.mem_takeWhile_imp hy)
          (by rw [htw]; exact List.cons_ne_nil _ _) huh2 hchrest
        exact absurd hpn (by decide)
    · rw [show stripLeadingComma (c :: rest) = c :: rest from by
        simp [stripLeadingComma, hc]] at huh
      by_cases hcs : isPySpace c = true
      · -- leading whitespace followed (after the run) by a comma:
        -- contradiction with the invariant
        have hsplit : c :: rest =
            (c :: rest).takeWhile isPySpace ++ (c :: rest).dropWhile isPySpace :=
          (List.takeWhile_append_dropWhile _ _).symm
        have htwne : (c :: rest).takeWhile isPySpace ≠ [] := by
          rw [List.takeWhile_cons, if_pos hcs]
          exact List.cons_ne_nil _ _
        have hchz : List.Chain' goodPair
            ((c :: rest).takeWhile isPySpace ++ (c :: rest).dropWhile isPySpace) := by
          rw [← hsplit]
          exact hch
        have hpn := head_after_spaces
          (fun y hy => List.mem_takeWhile_imp hy) htwne huh hchz
        exact absurd hpn (by decide)
      · rw [Bool.not_eq_true] at hcs
        rw [dW_eq_self (by
          intro d hd
          simp at hd
          rw [← hd]
          exact hcs)] at huh
        simp at huh
        exact hc huh

/-- C4 witness: instance of the amended theorem at a concrete input. -/
theorem C4_amended_witness :
    [',', ','].isPrefixOf (preComma ", hello".toList) = false ∧
      (clean_hesitations ", hello".toList).head? ≠ some ',' :=
  ⟨by decide, C4_amended _ (by decide)⟩

/-! ## Idempotence (claim C1) -/

theorem collapse_eq_self : ∀ (s : List Char), List.Chain' noWW s →
    collapseWsAux false s = s := by
  intro s
  induction s with
  | nil => intro _; rfl
  | cons c cs ih =>
    intro hch
    have htail : List.Chain' noWW cs := (List.chain'_cons'.mp hch).2
    by_cases hsp : isPySpace c = true
    · cases cs with
      | nil => rw [collapse_false_space_nil hsp]
      | cons d cs' =>
        have hd : isPySpace d = false := by
          have hpair := (List.chain'_cons'.mp hch).1 d rfl
          by_contra hd4
          rw [Bool.not_eq_false] at hd4
          exact hpair ⟨hsp, hd4⟩
        rw [collapse_false_space_nonspace hsp hd, ih htail]
    · rw [Bool.not_eq_true] at hsp
      rw [collapse_nonspace hsp false, ih htail]

theorem stripP_eq_self_aux : ∀ (N : Nat) (s : List Char), s.length ≤ N →
    List.Chain' goodPair s → stripWsPAux [] s = s := by
  intro N
  induction N with
  | zero =>
    intro s hs _
    have hnil : s = [] := List.eq_nil_of_length_eq_zero (Nat.le_zero.mp hs)
    subst hnil
    rfl
  | succ N ih =>
    intro s hs hch
    cases s with
    | nil => rfl
    | cons c cs =>
      by_cases hsp : isPySpace c = true
      · rw [stripP_space hsp]
        cases cs with
        | nil => rfl
        | cons d cs' =>
          have hpair : goodPair c d := (List.chain'_cons'.mp hch).1 d rfl
          have hdns : isPySpace d = false := by
            by_contra hb
            rw [Bool.not_eq_false] at hb
            exact hpair ⟨hsp, Or.inl hb⟩
          have hdnp : isPunct4 d = false := by
            by_contra hb
            rw [Bool.not_eq_false] at hb
            exact hpair ⟨hsp, Or.inr hb⟩
          rw [stripP_flush hdns (Or.inl hdnp)]
          rw [ih cs' (by simp at hs; omega)
            (List.chain'_cons'.mp (List.chain'_cons'.mp hch).2).2]
          rfl
      · rw [Bool.not_eq_true] at hsp
        rw [stripP_flush hsp (Or.inr rfl)]
        rw [ih cs (by simp at hs; omega) (List.chain'_cons'.mp hch).2]
        rfl

theorem stripP_eq_self {s : List Char} (hch : List.Chain' goodPair s) :
    stripWsBeforePunct s = s := stripP_eq_self_aux s.length s le_rfl hch

theorem stripLeadingComma_eq_self {s : List Char} (h : s.head? ≠ some ',') :
    stripLeadingComma s = s := by
  cases s with
  | nil => rfl
  | cons c cs =>
    have hc : ¬c = ',' := by
      intro e
      subst e
      exact h rfl
    simp [stripLeadingComma, hc]

theorem pyStrip_idem (s : List Char) : pyStrip (pyStrip s) = pyStrip s := by
  unfold pyStrip
  have h1 : ((s.dropWhile isPySpace).rdropWhile isPySpace).dropWhile isPySpace =
      (s.dropWhile isPySpace).rdropWhile isPySpace := by
    apply dW_eq_self
    intro c hc
    have hne : (s.dropWhile isPySpace).rdropWhile isPySpace ≠ [] := by
      intro h0
      rw [h0] at hc
      simp at hc
    rw [head?_of_pre (List.rdropWhile_prefix _ _) hne] at hc
    exact head_dropWhile_space hc
  rw [h1, List.rdropWhile_idempotent]

theorem foldl_removeFiller_eq_self : ∀ (order : List (List Char)),
    (∀ f ∈ order, fillerOK f) → ∀ s : List Char,
    (∀ w ∈ words s, ∀ f ∈ order, w.map toLowerC ≠ f) →
    order.foldl (fun t f => removeFiller f t) s = s := by
  intro order
  induction order with
  | nil => intro _ s _; rfl
  | cons f0 rest ih =>
    intro ho s hno
    rw [List.foldl_cons, removeFiller_eq_self (ho f0 (by simp))
      (fun w hw => hno w hw f0 (by simp))]
    exact ih (fun f hf => ho f (by simp [hf])) s (fun w hw f hf => hno w hw f (by simp [hf]))

theorem removeFillers_eq_self {s : List Char}
    (hno : ∀ w ∈ words s, ∀ f ∈ FILLERS, w.map toLowerC ≠ f) :
    removeFillers s = s :=
  foldl_removeFiller_eq_self FILLERS fillerOK_FILLERS s hno

/-- C1 counterexample: `clean_hesitations` is not idempotent — on the
input `",,"` the first pass yields `","` (only one leading comma is
removed) and the second pass erases that comma as well. -/
theorem C1_counterexample :
    clean_hesitations (clean_hesitations ",,".toList) ≠
        clean_hesitations ",,".toList ∧
      clean_hesitations ",,".toList = ",".toList ∧
      clean_hesitations (clean_hesitations ",,".toList) = [] :=
  ⟨by decide, by decide, by decide⟩

/-- C1 (amended claim theorem): `clean_hesitations` is idempotent at every
input whose cleaned output does not start with a comma (the leading-comma
step is the only source of non-idempotence). -/
theorem C1_amended (x : List Char)
    (h : (clean_hesitations x).head? ≠ some ',') :
    clean_hesitations (clean_hesitations x) = clean_hesitations x := by
  have hgood : List.Chain' goodPair (clean_hesitations x) := chainGood_clean x
  have hWW : List.Chain' noWW (clean_hesitations x) :=
    hgood.imp (fun a b hg hcon => hg ⟨hcon.1, Or.inl hcon.2⟩)
  have hnof : ∀ w ∈ words (clean_hesitations x), ∀ f ∈ FILLERS,
      w.map toLowerC ≠ f := clean_no_filler_words x
  calc clean_hesitations (clean_hesitations x)
      = pyStrip (stripLeadingComma (stripWsBeforePunct (collapseWs
          (removeFillers (clean_hesitations x))))) := rfl
    _ = pyStrip (stripLeadingComma (stripWsBeforePunct (collapseWs
          (clean_hesitations x)))) := by rw [removeFillers_eq_self hnof]
    _ = pyStrip (stripLeadingComma (stripWsBeforePunct (clean_hesitations x))) := by
          rw [show collapseWs (clean_hesitations x) = clean_hesitations x from
            collapse_eq_self _ hWW]
    _ = pyStrip (stripLeadingComma (clean_hesitations x)) := by
          rw [stripP_eq_self hgood]
    _ = pyStrip (clean_hesitations x) := by rw [stripLeadingComma_eq_self h]
    _ = clean_hesitations x := by
          rw [show clean_hesitations x =
            pyStrip (stripLeadingComma (preComma x)) from rfl, pyStrip_idem]

/-- C1 witness: instance of the amended theorem at a concrete input. -/
theorem C1_amended_witness :
    (clean_hesitations "Um, hi there.  uh!".toList).head? ≠ some ',' ∧
      clean_hesitations (clean_hesitations "Um, hi there.  uh!".toList) =
        clean_hesitations "Um, hi there.  uh!".toList :=
  ⟨by decide, C1_amended _ (by decide)⟩

/-! ## Trailing punctuation after a filler (claim C3) -/

theorem subF_match' {f s : List Char} {n : Nat} (hn : 1 ≤ n)
    (h : fillerMatch f false s = some n) :
    subF f false 0 s = subF f (n == f.length) 0 (s.drop n) := by
  cases n with
  | zero => exact absurd hn (by omega)
  | succ m =>
    cases s with
    | nil =>
      exfalso
      unfold fillerMatch at h
      by_cases hml : matchesLower f [] = true
      · rw [if_neg Bool.false_ne_true, if_pos hml] at h
        cases f with
        | nil => simp [fillerTail] at h
        | cons a f' => simp [matchesLower] at hml
      · rw [if_neg Bool.false_ne_true, if_neg hml] at h
        exact absurd h (by simp)
    | cons c cs =>
      rw [subF_match h, List.drop_succ_cons]
      simp only [Nat.add_sub_cancel]

/-- C3 counterexample: the claim that the `[.,]` after a filler is always
deleted along with it is false.  On `"um. x"` (punctuation followed by a
space) the um-pass deletes only `"um"` and the `'.'` remains. -/
theorem C3_counterexample :
    removeFiller "um".toList "um. x".toList = ". x".toList ∧
      '.' ∈ removeFiller "um".toList "um. x".toList :=
  ⟨by decide, by decide⟩

/-- C3 (amended claim theorem): the filler-removal pass deletes the
trailing `'.'`/`','` together with the filler exactly when the
punctuation is immediately followed by a word character; when it is
followed by a non-word character or the end of the string, only the
filler is deleted and the punctuation character remains in place. -/
theorem C3_amended (f : List Char) (hf : f ∈ FILLERS) (p : Char)
    (hp : isPunct2 p = true) (rest : List Char) :
    removeFiller f (f ++ p :: rest) =
      (if isWordOpt rest.head? then removeFiller f rest
       else p :: removeFiller f rest) := by
  have hOK : fillerOK f := fillerOK_FILLERS f hf
  have hmap : f.map toLowerC = f := by
    have hid : ∀ c ∈ f, toLowerC c = c := fun c hc => (hOK.2 c hc).2
    calc f.map toLowerC = f.map id := List.map_congr_left hid
      _ = f := List.map_id f
  have hlen1 : 1 ≤ f.length := List.length_pos.mpr hOK.1
  have hml : matchesLower f (f ++ p :: rest) = true := matchesLower_of_map hmap _
  have hdrop : (f ++ p :: rest).drop f.length = p :: rest := List.drop_left f (p :: rest)
  by_cases hw : isWordOpt rest.head? = true
  · have hm : fillerMatch f false (f ++ p :: rest) = some (f.length + 1) := by
      unfold fillerMatch
      rw [if_neg Bool.false_ne_true, if_pos hml, hdrop]
      simp [fillerTail, hp, hw]
    rw [if_pos hw]
    unfold removeFiller
    rw [subF_match' (by omega) hm]
    rw [show ((f.length + 1 : Nat) == f.length) = false from by
      rw [beq_eq_false_iff_ne]; omega]
    congr 1
    rw [show f ++ p :: rest = (f ++ [p]) ++ rest from by simp,
      show f.length + 1 = (f ++ [p]).length from by simp]
    exact List.drop_left _ _
  · rw [Bool.not_eq_true] at hw
    have hm : fillerMatch f false (f ++ p :: rest) = some f.length := by
      unfold fillerMatch
      rw [if_neg Bool.false_ne_true, if_pos hml, hdrop]
      simp [fillerTail, hp, hw, not_word_of_punct2 hp]
    rw [if_neg (by simp [hw])]
    unfold removeFiller
    rw [subF_match' (by omega) hm]
    rw [show ((f.length : Nat) == f.length) = true from by simp, hdrop]
    rw [subF_nomatch (fillerMatch_prevWord f (p :: rest)), not_word_of_punct2 hp]

/-- C3 witness: instance of the amended theorem at a concrete input. -/
theorem C3_amended_witness :
    "um".toList ∈ FILLERS ∧ isPunct2 ',' = true ∧
      removeFiller "um".toList ("um".toList ++ ',' :: "x".toList) =
        (if isWordOpt "x".toList.head? then removeFiller "um".toList "x".toList
         else ',' :: removeFiller "um".toList "x".toList) :=
  ⟨by decide, by decide, C3_amended _ (by decide) _ (by decide) _⟩

/-! ## The caption parser `sanitize_vtt` (src/app.py lines 78-99) -/

/-- Prepend a character to the first piece of a split. -/
def consHead (c : Char) : List (List Char) → List (List Char)
  | [] => [[c]]
  | l :: ls => (c :: l) :: ls

/-- Split the payload into lines at `'\n'` (the `for line in file`
iteration; each line is stripped afterwards, so whether the terminator is
kept is immaterial). -/
def splitOnNl : List Char → List (List Char)
  | [] => [[]]
  | c :: cs =>
    if c = '\n' then [] :: splitOnNl cs
    else consHead c (splitOnNl cs)

/-- Python `str.isdigit` (ASCII): nonempty and all decimal digits. -/
def pyIsDigit (s : List Char) : Bool := !s.isEmpty && s.all Char.isDigit

/-- `"-->" in line`. -/
def containsArrow : List Char → Bool
  | [] => false
  | c :: cs => ("-->".toList).isPrefixOf (c :: cs) || containsArrow cs

/-- The classification made by the loop body of `sanitize_vtt`: a stripped
line is kept iff it is nonempty, is not the header token, is not all
digits, and does not contain the timing separator. -/
def keepLine (t : List Char) : Bool :=
  !t.isEmpty && !(t == "WEBVTT".toList) && !pyIsDigit t && !containsArrow t

/-- The line loop of `sanitize_vtt`. -/
def sanitizeLines : List (List Char) → List (List Char)
  | [] => []
  | l :: ls =>
    let t := pyStrip l
    if t.isEmpty then sanitizeLines ls
    else if t == "WEBVTT".toList then sanitizeLines ls
    else if pyIsDigit t then sanitizeLines ls
    else if containsArrow t then sanitizeLines ls
    else t :: sanitizeLines ls

/-- `" ".join(cleaned_lines)`. -/
def joinSpace : List (List Char) → List Char
  | [] => []
  | [t] => t
  | t :: ts => t ++ ' ' :: joinSpace ts

/-- `sanitize_vtt` (src/app.py lines 78-99), on the text content of the
fetched subtitle file. -/
def sanitize_vtt (payload : List Char) : List Char :=
  joinSpace (sanitizeLines (splitOnNl payload))

theorem sanitizeLines_eq_filter : ∀ ls : List (List Char),
    sanitizeLines ls = (ls.map pyStrip).filter keepLine := by
  intro ls
  induction ls with
  | nil => rfl
  | cons l ls ih =>
    by_cases h1 : (pyStrip l).isEmpty = true
    · simp [sanitizeLines, keepLine, h1, ih]
    · by_cases h2 : pyStrip l = "WEBVTT".toList
      · simp [sanitizeLines, keepLine, h1, h2, ih]
      · by_cases h3 : pyIsDigit (pyStrip l) = true
        · simp [sanitizeLines, keepLine, h1, h2, h3, ih]
        · by_cases h4 : containsArrow (pyStrip l) = true
          · simp [sanitizeLines, keepLine, h1, h2, h3, h4, ih]
          · have h2' : ¬pyStrip l = ['W', 'E', 'B', 'V', 'T', 'T'] := by
              simpa using h2
            simp [sanitizeLines, keepLine, h1, h2', h3, h4, ih]

/-- C8 (claim theorem): a trimmed line is discarded exactly when it is
empty, the literal header token, all decimal digits, or contains `-->`;
the rest are kept in order, so no segment of the parse output is the
header token, all digits, or contains `-->`. -/
theorem C8_parse_segments (payload : List Char) :
    sanitizeLines (splitOnNl payload) =
        ((splitOnNl payload).map pyStrip).filter keepLine ∧
      ∀ seg ∈ sanitizeLines (splitOnNl payload),
        seg ≠ [] ∧ seg ≠ "WEBVTT".toList ∧ seg.all Char.isDigit ≠ true ∧
          containsArrow seg = false := by
  refine ⟨sanitizeLines_eq_filter _, ?_⟩
  intro seg hseg
  rw [sanitizeLines_eq_filter] at hseg
  have hk := List.of_mem_filter hseg
  simp only [keepLine, Bool.and_eq_true, Bool.not_eq_true'] at hk
  obtain ⟨⟨⟨hne, hweb⟩, hdig⟩, harr⟩ := hk
  have hnil : seg ≠ [] := by
    intro h0
    rw [h0] at hne
    simp at hne
  refine ⟨hnil, by simpa using hweb, ?_, harr⟩
  intro hall
  rw [pyIsDigit, hall, Bool.and_true] at hdig
  rw [Bool.not_eq_false', List.isEmpty_iff] at hdig
  exact hnil hdig

/-- C8 witness: instance at a concrete payload and segment. -/
theorem C8_parse_segments_witness :
    "hi".toList ∈ sanitizeLines (splitOnNl "WEBVTT\n1\nhi".toList) ∧
      ("hi".toList ≠ [] ∧ "hi".toList ≠ "WEBVTT".toList ∧
        ("hi".toList).all Char.isDigit ≠ true ∧ containsArrow "hi".toList = false) :=
  ⟨by decide, (C8_parse_segments "WEBVTT\n1\nhi".toList).2 _ (by decide)⟩

/-! ## The spec's worked example (claim C7) -/

/-- The example payload of the spec, its lines joined with newlines. -/
def examplePayload : List Char :=
  ("WEBVTT\n1\n00:00:01.000 --> 00:00:02.000\nUh, hello world.\n\n2\n" ++
    "00:00:03.000 --> 00:00:04.000\num this is, hmm a test").toList

/-- C7 counterexample: `parse` does not return the string claimed by the
spec — the filler `"um"` is still present in the parse output, because
the parser performs no filler removal. -/
theorem C7_counterexample :
    sanitize_vtt examplePayload ≠
        "Uh, hello world. this is, hmm a test".toList ∧
      sanitize_vtt examplePayload =
        "Uh, hello world. um this is, hmm a test".toList :=
  ⟨by decide, by decide⟩

/-- C7 (amended claim theorem): on the example payload, parse returns
`"Uh, hello world. um this is, hmm a test"` (the `"um"` is kept by the
parser), and normalize applied to that parse output returns
`"hello world. this is, a test"` (as the spec states for the final
output). -/
theorem C7_amended :
    sanitize_vtt examplePayload =
        "Uh, hello world. um this is, hmm a test".toList ∧
      clean_hesitations "Uh, hello world. um this is, hmm a test".toList =
        "hello world. this is, a test".toList :=
  ⟨by decide, by decide⟩

/-! ## PDF export paragraphs (claim C10) -/

/-- The body paragraphs emitted by `create_pdf` (src/app.py lines 55-59):
`text.split('\n')`, each stripped, with whitespace-only pieces skipped. -/
def pdfParagraphs (text : List Char) : List (List Char) :=
  ((splitOnNl text).map pyStrip).filter (fun p => !p.isEmpty)

theorem splitOnNl_no_nl : ∀ (s : List Char), ∀ t ∈ splitOnNl s, '\n' ∉ t := by
  intro s
  induction s with
  | nil =>
    intro t ht
    simp [splitOnNl] at ht
    subst ht
    simp
  | cons c cs ih =>
    intro t ht
    by_cases hc : c = '\n'
    · subst hc
      rw [show splitOnNl ('\n' :: cs) = [] :: splitOnNl cs from by simp [splitOnNl]] at ht
      rcases List.mem_cons.mp ht with rfl | ht'
      · simp
      · exact ih t ht'
    · rw [show splitOnNl (c :: cs) = consHead c (splitOnNl cs) from by
        simp [splitOnNl, hc]] at ht
      cases hsp : splitOnNl cs with
      | nil =>
        rw [hsp] at ht
        simp [consHead] at ht
        subst ht
        simp
        exact fun e => hc e.symm
      | cons l ls =>
        rw [hsp] at ht
        simp only [consHead] at ht
        rcases List.mem_cons.mp ht with rfl | ht'
        · intro hmem
          rcases List.mem_cons.mp hmem with heq | hmem'
          · exact hc heq.symm
          · exact ih l (by rw [hsp]; exact List.mem_cons_self _ _) hmem'
        · exact ih t (by rw [hsp]; exact List.mem_cons_of_mem _ ht')

theorem splitOnNl_eq_self {s : List Char} (h : '\n' ∉ s) : splitOnNl s = [s] := by
  induction s with
  | nil => rfl
  | cons c cs ih =>
    have hc : ¬c = '\n' := by
      intro e
      exact h (by rw [e]; exact List.mem_cons_self _ _)
    rw [show splitOnNl (c :: cs) = consHead c (splitOnNl cs) from by simp [splitOnNl, hc],
      ih (fun hm => h (List.mem_cons_of_mem _ hm))]
    rfl

theorem mem_subF {f : List Char} : ∀ (s : List Char) (b : Bool) (k : Nat) (c : Char),
    c ∈ subF f b k s → c ∈ s := by
  intro s
  induction s with
  | nil =>
    intro b k c h
    cases k <;> simp [subF] at h
  | cons a cs ih =>
    intro b k c h
    cases k with
    | succ k' =>
      exact List.mem_cons_of_mem a (ih b k' c h)
    | zero =>
      cases hm : fillerMatch f b (a :: cs) with
      | some n =>
        rw [subF_cons, hm] at h
        exact List.mem_cons_of_mem a (ih _ _ c h)
      | none =>
        rw [subF_cons, hm] at h
        rcases List.mem_cons.mp h with rfl | h'
        · exact List.mem_cons_self _ _
        · exact List.mem_cons_of_mem a (ih _ _ c h')

theorem mem_collapse : ∀ (s : List Char) (flag : Bool) (c : Char),
    c ∈ collapseWsAux flag s → c ∈ s ∨ c = ' ' := by
  intro s
  induction s with
  | nil => intro flag c h; simp [collapseWsAux] at h
  | cons a cs ih =>
    intro flag c h
    by_cases ha : isPySpace a = true
    · cases flag with
      | true =>
        rw [collapse_true_space ha] at h
        rcases ih true c h with h' | h'
        · exact Or.inl (List.mem_cons_of_mem a h')
        · exact Or.inr h'
      | false =>
        cases cs with
        | nil =>
          rw [collapse_false_space_nil ha] at h
          exact Or.inl h
        | cons d cs' =>
          by_cases hd : isPySpace d = true
          · rw [collapse_false_space_space ha hd] at h
            rcases List.mem_cons.mp h with rfl | h'
            · exact Or.inr rfl
            · rcases ih true c h' with h'' | h''
              · exact Or.inl (List.mem_cons_of_mem a h'')
              · exact Or.inr h''
          · rw [Bool.not_eq_true] at hd
            rw [collapse_false_space_nonspace ha hd] at h
            rcases List.mem_cons.mp h with rfl | h'
            · exact Or.inl (List.mem_cons_self _ _)
            · rcases ih false c h' with h'' | h''
              · exact Or.inl (List.mem_cons_of_mem a h'')
              · exact Or.inr h''
    · rw [Bool.not_eq_true] at ha
      rw [collapse_nonspace ha flag] at h
      rcases List.mem_cons.mp h with rfl | h'
      · exact Or.inl (List.mem_cons_self _ _)
      · rcases ih false c h' with h'' | h''
        · exact Or.inl (List.mem_cons_of_mem a h'')
        · exact Or.inr h''

theorem mem_stripP : ∀ (s pending : List Char) (c : Char),
    c ∈ stripWsPAux pending s → c ∈ pending ∨ c ∈ s := by
  intro s
  induction s with
  | nil =>
    intro pending c h
    rw [show stripWsPAux pending [] = pending.reverse from rfl] at h
    exact Or.inl (List.mem_reverse.mp h)
  | cons a cs ih =>
    intro pending c h
    by_cases ha : isPySpace a = true
    · rw [stripP_space ha] at h
      rcases ih (a :: pending) c h with h' | h'
      · rcases List.mem_cons.mp h' with rfl | h''
        · exact Or.inr (List.mem_cons_self _ _)
        · exact Or.inl h''
      · exact Or.inr (List.mem_cons_of_mem a h')
    · rw [Bool.not_eq_true] at ha
      by_cases hpu : isPunct4 a = true ∧ pending ≠ []
      · rw [stripP_punct hpu.1 hpu.2] at h
        rcases List.mem_cons.mp h with rfl | h'
        · exact Or.inr (List.mem_cons_self _ _)
        · rcases ih [] c h' with h'' | h''
          · simp at h''
          · exact Or.inr (List.mem_cons_of_mem a h'')
      · have h2 : isPunct4 a = false ∨ pending = [] := by
          by_cases h4 : isPunct4 a = true
          · right
            by_contra hne
            exact hpu ⟨h4, hne⟩
          · left
            exact Bool.eq_false_iff.mpr h4
        rw [stripP_flush ha h2] at h
        rcases List.mem_append.mp h with h' | h'
        · exact Or.inl (List.mem_reverse.mp h')
        · rcases List.mem_cons.mp h' with rfl | h''
          · exact Or.inr (List.mem_cons_self _ _)
          · rcases ih [] c h'' with h3 | h3
            · simp at h3
            · exact Or.inr (List.mem_cons_of_mem a h3)

theorem mem_stripLeadingComma {s : List Char} {c : Char}
    (h : c ∈ stripLeadingComma s) : c ∈ s := by
  cases s with
  | nil => exact h
  | cons a cs =>
    by_cases ha : a = ','
    · rw [show stripLeadingComma (a :: cs) = cs.dropWhile isPySpace from by
        simp [stripLeadingComma, ha]] at h
      exact List.mem_cons_of_mem a ((List.dropWhile_suffix isPySpace).subset h)
    · rw [show stripLeadingComma (a :: cs) = a :: cs from by
        simp [stripLeadingComma, ha]] at h
      exact h

theorem mem_pyStrip {s : List Char} {c : Char} (h : c ∈ pyStrip s) : c ∈ s :=
  (pyStrip_isIn s).subset h

theorem mem_joinSpace : ∀ (l : List (List Char)) (c : Char),
    c ∈ joinSpace l → c = ' ' ∨ ∃ t ∈ l, c ∈ t := by
  intro l
  induction l with
  | nil => intro c h; simp [joinSpace] at h
  | cons t ts ih =>
    intro c h
    cases ts with
    | nil =>
      right
      exact ⟨t, List.mem_cons_self _ _, h⟩
    | cons t2 ts' =>
      rw [show joinSpace (t :: t2 :: ts') = t ++ ' ' :: joinSpace (t2 :: ts') from rfl] at h
      rcases List.mem_append.mp h with h1 | h2
      · right
        exact ⟨t, List.mem_cons_self _ _, h1⟩
      · rcases List.mem_cons.mp h2 with rfl | h3
        · exact Or.inl rfl
        · rcases ih c h3 with h4 | ⟨u, hu, hcu⟩
          · exact Or.inl h4
          · right
            exact ⟨u, List.mem_cons_of_mem _ hu, hcu⟩

theorem sanitize_no_nl (payload : List Char) : '\n' ∉ sanitize_vtt payload := by
  intro hmem
  rcases mem_joinSpace _ _ hmem with h | ⟨t, ht, hct⟩
  · exact absurd h (by decide)
  · rw [sanitizeLines_eq_filter] at ht
    have ht2 := List.mem_of_mem_filter ht
    obtain ⟨piece, hp, rfl⟩ := List.mem_map.mp ht2
    exact splitOnNl_no_nl payload piece hp (mem_pyStrip hct)

theorem mem_removeFillers : ∀ (order : List (List Char)) (s : List Char) (c : Char),
    c ∈ order.foldl (fun t f => removeFiller f t) s → c ∈ s := by
  intro order
  induction order with
  | nil => intro s c h; exact h
  | cons f0 rest ih =>
    intro s c h
    rw [List.foldl_cons] at h
    exact mem_subF _ _ _ _ (ih (removeFiller f0 s) c h)

theorem clean_no_nl {s : List Char} (h : '\n' ∉ s) :
    '\n' ∉ clean_hesitations s := by
  intro hmem
  have h1 := mem_pyStrip hmem
  have h2 := mem_stripLeadingComma h1
  rcases mem_stripP _ _ _ h2 with h3 | h3
  · simp at h3
  · rcases mem_collapse _ _ _ h3 with h4 | h4
    · exact h (mem_removeFillers FILLERS s '\n' h4)
    · exact absurd h4 (by decide)

/-- C10 (claim theorem): the cleaned transcript handed to the exporters
contains no newline character, so `create_pdf` emits at most one body
paragraph after the title. -/
theorem C10_no_newline_single_paragraph (payload : List Char) :
    '\n' ∉ clean_hesitations (sanitize_vtt payload) ∧
      (pdfParagraphs (clean_hesitations (sanitize_vtt payload))).length ≤ 1 := by
  have hnl : '\n' ∉ clean_hesitations (sanitize_vtt payload) :=
    clean_no_nl (sanitize_no_nl payload)
  refine ⟨hnl, ?_⟩
  unfold pdfParagraphs
  rw [splitOnNl_eq_self hnl]
  simp only [List.map_cons, List.map_nil, List.filter_cons, List.filter_nil]
  split <;> simp

/-! ## The fetch sequence of one button press (claim C9) -/

/-- `BASE_URL` (src/app.py line 17). -/
def BASE_URL : List Char := "https://player.vimeo.com".toList

/-- The URLs passed to `download_subtitles_file`, in order, during one
execution of the button branch of `setup_sanitize_download`
(src/app.py lines 122-133): the path is normalized to start with `/`, the
function is called on line 128 with its result discarded, and called
again on line 130 as the condition of the `if`.  Both calls receive the
same `full_url`, and the second call is made regardless of the outcome of
the first (only after it does the control flow branch on the result). -/
def sanitizeFetches (subPath : List Char) : List (List Char) :=
  let sp := if subPath.head? = some '/' then subPath else '/' :: subPath
  let url := BASE_URL ++ sp
  [url, url]

/-- C9: the code performs two fetches of the same URL on every press of
the Sanitize button — `download_subtitles_file` is invoked twice (lines
128 and 130 of src/app.py), the second time even when the first fetch
already failed.  This contradicts the claim that the fetch happens at
most once and that a failed fetch is never refetched. -/
theorem C9_double_fetch (subPath : List Char) :
    (sanitizeFetches subPath).length = 2 ∧
      ∃ url, sanitizeFetches subPath = [url, url] :=
  ⟨rfl, ⟨BASE_URL ++ (if subPath.head? = some '/' then subPath else '/' :: subPath),
    rfl⟩⟩

end VimeoTranscript
